import Mathlib

/-!
Verification of the Trusty log ring-buffer consumer
(`drivers/trusty/trusty-log.c`).

The embedding models the consumer-side drain algorithm: `log_read_line`
(the bounded line copy) and `trusty_dump_logs` (the drain loop with its
overflow-recovery jump), over a shared ring buffer `log_rb` whose
counters are 32-bit unsigned values.  Machine arithmetic is modelled as
`Nat` with explicit reduction modulo `2^32`; the producer-controlled
state (`sz`, `put`, `alloc`, `data`) is arbitrary.  The drain loop is
given explicit fuel because, against an adversarial producer, the C loop
need not terminate (this is settled below).
-/

set_option maxRecDepth 100000

namespace TrustyLog

/-- `2^32`, the modulus of the u32 counters used by the ring buffer. -/
def M32 : Nat := 4294967296

/-- Reduction of a counter value to u32, i.e. modulo `2^32`. -/
def u32 (n : Nat) : Nat := n % M32

/-- u32 subtraction `a - b` with wraparound, as computed by C on `u32`
operands (the result is the unique representative in `[0, 2^32)`). -/
def u32sub (a b : Nat) : Nat := (a + (M32 - b % M32)) % M32

/-- Kernel `is_power_of_2` (include/linux/log2.h):
`n != 0 && ((n & (n - 1)) == 0)`. -/
def is_power_of_2 (n : Nat) : Bool := n != 0 && (n &&& (n - 1) == 0)

/-- The shared ring buffer `struct log_rb` as used by `trusty-log.c`
(`log->sz`, `log->put`, `log->alloc`, `log->data`): a capacity, the two
producer counters, and the byte array, modelled as a total function from
index to byte value.  All counter fields are u32 values. -/
structure log_rb where
  sz : Nat
  put : Nat
  alloc : Nat
  data : Nat → Nat

/-- Result of `log_read_line`: the final scratch buffer (`line_buffer`
with its terminating `0`), the returned count `i`, the list of bytes
copied, and the list of `data` indices that were read. -/
structure ReadOut where
  buf : Nat → Nat
  count : Nat
  line : List Nat
  idxs : List Nat

/-- The copy loop of `log_read_line`:
`for (i = 0; i < max_to_read && c != '\n';) s->line_buffer[i++] = c = log->data[get++ & mask];`
embedded structurally on the remaining iteration budget
`remaining = max_to_read - i`.  Newline is byte `10`. -/
def readLoop (data : Nat → Nat) (mask : Nat) (buf : Nat → Nat) (i get : Nat) :
    Nat → ReadOut
  | 0 => ⟨buf, i, [], []⟩
  | r + 1 =>
    let c := data (get &&& mask)
    let buf' := fun j => if j = i then c else buf j
    if c = 10 then ⟨buf', i + 1, [c], [get &&& mask]⟩
    else
      let o := readLoop data mask buf' (i + 1) (get + 1) r
      ⟨o.buf, o.count, c :: o.line, (get &&& mask) :: o.idxs⟩

/-- `log_read_line(s, put, get)`.  `max_to_read` is
`min_t(size_t, put - get, sizeof(s->line_buffer) - 1)`; with `put`,
`get` passed through `int` from u32 values, the net value is
`min((put - get) mod 2^32, 255)` (a difference with the high bit set
becomes a huge `size_t`, clamped to 255 by the `min`).  After the loop
the C code writes the terminator `s->line_buffer[i] = '\0'` and
returns `i`. -/
def log_read_line (log : log_rb) (buf : Nat → Nat) (put get : Nat) : ReadOut :=
  let max_to_read := min (u32sub put get) 255
  let mask := log.sz - 1
  let o := readLoop log.data mask buf 0 get max_to_read
  ⟨fun j => if j = o.count then 0 else o.buf j, o.count, o.line, o.idxs⟩

/-- One iteration of the `while ((put = log->put) != get)` loop of
`trusty_dump_logs`, seen from a cursor value `get`: either the loop
guard fails (`done`), or the overflow check
`alloc - get > log->sz` fires (`overflow`, carrying the new cursor
`alloc - log->sz` and the indices read), or a line is produced
(`line`, carrying the bytes, the advanced cursor `get + read_chars`,
and the indices read). -/
inductive Step where
  | done : Step
  | overflow : Nat → List Nat → Step
  | line : List Nat → Nat → List Nat → Step
deriving DecidableEq, Repr

/-- The body of one drain-loop iteration of `trusty_dump_logs`. -/
def drainStep (log : log_rb) (get : Nat) : Step :=
  if u32 log.put = u32 get then .done
  else
    let r := log_read_line log (fun _ => 0) log.put get
    if log.sz < u32sub log.alloc get then
      .overflow (u32sub log.alloc log.sz) r.idxs
    else
      .line r.line (u32 (get + r.count)) r.idxs

/-- Observable result of a drain: the final cursor (`s->get`), the
candidate lines in order, each paired with the rate limiter's verdict
(`true` = submitted to the sink via `dev_info`, `false` = dropped), the
number of `"log overflow."` reports (`dev_err`), and every `data` index
read. -/
structure DrainOut where
  get : Nat
  lines : List (List Nat × Bool)
  overflows : Nat
  idxs : List Nat
deriving DecidableEq, Repr

/-- The drain loop of `trusty_dump_logs`, with fuel.  `lim` is the rate
limiter `__ratelimit(&trusty_log_rate_limit)` modelled as an oracle on
the number of limiter calls made so far (`tick`); the limiter is
consulted exactly once per non-discarded line, matching the C code where
`__ratelimit` is only reached in the non-overflow branch.  `none` means
the fuel ran out before the loop guard failed. -/
def drainLoop (log : log_rb) (lim : Nat → Bool) (tick get : Nat) :
    Nat → Option DrainOut
  | 0 => none
  | fuel + 1 =>
    match drainStep log get with
    | .done => some ⟨get, [], 0, []⟩
    | .overflow g idxs =>
      (drainLoop log lim tick g fuel).map fun d =>
        ⟨d.get, d.lines, d.overflows + 1, idxs ++ d.idxs⟩
    | .line l g idxs =>
      (drainLoop log lim (tick + 1) g fuel).map fun d =>
        ⟨d.get, (l, lim tick) :: d.lines, d.overflows, idxs ++ d.idxs⟩

/-- `trusty_dump_logs`: the `WARN_ON(!is_power_of_2(log->sz))` guard
followed by the drain loop.  The `Bool` in the result records whether
the configuration error was reported (guard fired); in that case the
function returns immediately: cursor unchanged, no lines, no reads. -/
def trusty_dump_logs (log : log_rb) (lim : Nat → Bool) (get : Nat)
    (fuel : Nat) : Option (DrainOut × Bool) :=
  if is_power_of_2 log.sz then
    (drainLoop log lim 0 get fuel).map fun d => (d, false)
  else
    some (⟨get, [], 0, []⟩, true)

/-- Termination of a single drain invocation, for some fuel. -/
def drainTerminates (log : log_rb) (lim : Nat → Bool) (get : Nat) : Prop :=
  ∃ fuel out, trusty_dump_logs log lim get fuel = some out

/-- Pure description of one bounded line copy: take bytes up to and
including the first newline (byte `10`). -/
def takeLine : List Nat → List Nat
  | [] => []
  | c :: r => c :: (if c = 10 then [] else takeLine r)

/-- The byte stream the consumer sees starting at counter `get`,
for `m` bytes: `log->data[(get + j) & (log->sz - 1)]`. -/
def stream (log : log_rb) (get : Nat) : Nat → List Nat
  | 0 => []
  | m + 1 => log.data (get &&& (log.sz - 1)) :: stream log (get + 1) m

theorem takeLine_length_pos (c : Nat) (r : List Nat) :
    1 ≤ (takeLine (c :: r)).length := by
  simp [takeLine]

theorem takeLine_length_le (l : List Nat) : (takeLine l).length ≤ l.length := by
  induction l with
  | nil => simp [takeLine]
  | cons c r ih =>
    simp only [takeLine, List.length_cons]
    split
    · simp
    · simpa using ih

/-- Chunk splitting, structurally recursive on a fuel bound (any bound
at least the list length gives the same value, see `chunksAux_congr`). -/
def chunksAux : Nat → List Nat → List (List Nat)
  | 0, _ => []
  | _ + 1, [] => []
  | n + 1, c :: r =>
    takeLine ((c :: r).take 255) ::
      chunksAux n ((c :: r).drop (takeLine ((c :: r).take 255)).length)

/-- Splitting a byte stream into the chunks the drain loop produces:
each chunk stops at a newline, at 255 bytes, or at the end of the
stream. -/
def chunks (bs : List Nat) : List (List Nat) := chunksAux bs.length bs

/-- Line splitting, structurally recursive on a fuel bound. -/
def splitLinesAux : Nat → List Nat → List (List Nat)
  | 0, _ => []
  | _ + 1, [] => []
  | n + 1, c :: r =>
    takeLine (c :: r) :: splitLinesAux n ((c :: r).drop (takeLine (c :: r)).length)

/-- Splitting a byte stream into its newline-terminated lines (the last
piece may lack a newline). -/
def splitLines (bs : List Nat) : List (List Nat) := splitLinesAux bs.length bs

theorem chunksAux_empty : ∀ n, chunksAux n [] = [] := by
  intro n; cases n <;> rfl

theorem splitLinesAux_empty : ∀ n, splitLinesAux n [] = [] := by
  intro n; cases n <;> rfl

theorem chunksAux_congr : ∀ (n m : Nat) (bs : List Nat),
    bs.length ≤ n → bs.length ≤ m → chunksAux n bs = chunksAux m bs := by
  intro n
  induction n with
  | zero =>
    intro m bs h1 _
    have hbs : bs = [] := List.eq_nil_of_length_eq_zero (by omega)
    rw [hbs, chunksAux_empty, chunksAux_empty]
  | succ n ih =>
    intro m bs h1 h2
    rcases bs with _ | ⟨c, r⟩
    · rw [chunksAux_empty, chunksAux_empty]
    · rcases m with _ | m
      · simp at h2
      · simp only [chunksAux]
        congr 1
        have hpos : 1 ≤ (takeLine ((c :: r).take 255)).length := by
          simp only [List.take_succ_cons]
          exact takeLine_length_pos _ _
        apply ih
        · simp only [List.length_drop, List.length_cons] at *
          omega
        · simp only [List.length_drop, List.length_cons] at *
          omega

theorem splitLinesAux_congr : ∀ (n m : Nat) (bs : List Nat),
    bs.length ≤ n → bs.length ≤ m → splitLinesAux n bs = splitLinesAux m bs := by
  intro n
  induction n with
  | zero =>
    intro m bs h1 _
    have hbs : bs = [] := List.eq_nil_of_length_eq_zero (by omega)
    rw [hbs, splitLinesAux_empty, splitLinesAux_empty]
  | succ n ih =>
    intro m bs h1 h2
    rcases bs with _ | ⟨c, r⟩
    · rw [splitLinesAux_empty, splitLinesAux_empty]
    · rcases m with _ | m
      · simp at h2
      · simp only [splitLinesAux]
        congr 1
        have hpos : 1 ≤ (takeLine (c :: r)).length := takeLine_length_pos _ _
        apply ih
        · simp only [List.length_drop, List.length_cons] at *
          omega
        · simp only [List.length_drop, List.length_cons] at *
          omega

theorem u32_lt (n : Nat) : u32 n < M32 := by
  unfold u32 M32; omega

theorem u32_u32 (n : Nat) : u32 (u32 n) = u32 n := by
  unfold u32 M32; omega

theorem u32sub_lt (a b : Nat) : u32sub a b < M32 := by
  unfold u32sub M32; omega

theorem u32sub_eq_zero_iff (a b : Nat) : u32sub a b = 0 ↔ u32 a = u32 b := by
  unfold u32sub u32 M32; omega

theorem u32sub_u32_right (a b : Nat) : u32sub a (u32 b) = u32sub a b := by
  unfold u32sub u32 M32; omega

theorem u32sub_add_right (a b r : Nat) (h : r ≤ u32sub a b) :
    u32sub a (b + r) = u32sub a b - r := by
  unfold u32sub M32 at *; omega

theorem u32sub_advance (put get r : Nat) (h : r ≤ u32sub put get) :
    u32sub put (u32 (get + r)) = u32sub put get - r := by
  rw [u32sub_u32_right]; exact u32sub_add_right put get r h

/-- Arithmetic of the overflow-recovery jump: if the producer keeps
`alloc - put ≤ sz` then after the jump to `alloc - sz` the distance to
`put` is exactly `sz - (alloc - put)`, and the jump strictly decreases
the distance to `put`. -/
theorem u32sub_jump (put alloc sz get : Nat)
    (ha : u32sub alloc put ≤ sz) (hsz : sz < M32)
    (hg : sz < u32sub alloc get) :
    u32sub put (u32sub alloc sz) = sz - u32sub alloc put ∧
    sz - u32sub alloc put < u32sub put get := by
  unfold u32sub M32 at *; omega

theorem stream_length (log : log_rb) (get : Nat) :
    ∀ m, (stream log get m).length = m := by
  intro m
  induction m generalizing get with
  | zero => rfl
  | succ m ih => simp [stream, ih]

/-- Every index `&&&`-masked with `2^k - 1` is the plain residue
modulo `2^k`. -/
theorem and_two_pow_sub_one (x k : Nat) : x &&& (2 ^ k - 1) = x % 2 ^ k := by
  apply Nat.eq_of_testBit_eq
  intro i
  simp only [Nat.testBit_and, Nat.testBit_two_pow_sub_one, Nat.testBit_mod_two_pow]
  cases Nat.decLt i k with
  | isTrue h => simp [h]
  | isFalse h => simp [h]

theorem readLoop_line (log : log_rb) (m : Nat) :
    ∀ (buf : Nat → Nat) (i get : Nat),
    (readLoop log.data (log.sz - 1) buf i get m).line = takeLine (stream log get m) := by
  induction m with
  | zero => intro buf i get; rfl
  | succ m ih =>
    intro buf i get
    simp only [readLoop, stream, takeLine]
    by_cases hc : log.data (get &&& (log.sz - 1)) = 10
    · simp [hc]
    · simp [hc, ih]

theorem readLoop_count (data : Nat → Nat) (mask : Nat) (m : Nat) :
    ∀ (buf : Nat → Nat) (i get : Nat),
    (readLoop data mask buf i get m).count = i + (readLoop data mask buf i get m).line.length := by
  induction m with
  | zero => intro buf i get; rfl
  | succ m ih =>
    intro buf i get
    simp only [readLoop]
    by_cases hc : data (get &&& mask) = 10
    · simp [hc]
    · simp only [hc, if_neg, ite_false]
      rw [ih]
      simp [Nat.add_comm, Nat.add_assoc, Nat.add_left_comm]

theorem readLoop_idxs_le (data : Nat → Nat) (mask : Nat) (m : Nat) :
    ∀ (buf : Nat → Nat) (i get : Nat),
    ∀ x ∈ (readLoop data mask buf i get m).idxs, x ≤ mask := by
  induction m with
  | zero => intro buf i get x hx; simp [readLoop] at hx
  | succ m ih =>
    intro buf i get x hx
    simp only [readLoop] at hx
    by_cases hc : data (get &&& mask) = 10
    · simp [hc] at hx
      subst hx
      exact Nat.and_le_right
    · simp [hc] at hx
      rcases hx with hx | hx
      · subst hx; exact Nat.and_le_right
      · exact ih _ _ _ x hx

/-- The copy loop never writes below the running write index. -/
theorem readLoop_buf_low (data : Nat → Nat) (mask : Nat) (m : Nat) :
    ∀ (buf : Nat → Nat) (i get j : Nat), j < i →
    (readLoop data mask buf i get m).buf j = buf j := by
  induction m with
  | zero => intro buf i get j hj; rfl
  | succ m ih =>
    intro buf i get j hj
    by_cases hc : data (get &&& mask) = 10
    · have hji : j ≠ i := by omega
      simp [readLoop, hc, hji]
    · simp only [readLoop, hc, ite_false]
      rw [ih _ _ _ _ (by omega : j < i + 1)]
      have hji : j ≠ i := by omega
      simp [hji]

/-- The copied bytes land in the scratch buffer at offsets
`i, i+1, ...`, in order: position `j` of the final buffer holds byte
`j - i` of the returned line, for `i ≤ j < count`. -/
theorem readLoop_buf_copied (data : Nat → Nat) (mask : Nat) (m : Nat) :
    ∀ (buf : Nat → Nat) (i get j : Nat), i ≤ j →
    j < (readLoop data mask buf i get m).count →
    (readLoop data mask buf i get m).buf j =
      (readLoop data mask buf i get m).line.getD (j - i) 0 := by
  induction m with
  | zero =>
    intro buf i get j hij hj
    simp only [readLoop] at hj
    omega
  | succ m ih =>
    intro buf i get j hij hj
    by_cases hc : data (get &&& mask) = 10
    · simp only [readLoop, hc, ite_true] at hj ⊢
      have hji : j = i := by omega
      subst hji
      simp
    · simp only [readLoop, hc, ite_false] at hj ⊢
      by_cases hji : j = i
      · subst hji
        rw [readLoop_buf_low data mask m _ _ _ _ (by omega : j < j + 1)]
        simp
      · have h1 : i + 1 ≤ j := by omega
        rw [ih _ _ _ _ h1 hj]
        have hsub : j - i = (j - (i + 1)) + 1 := by omega
        rw [hsub]
        simp

theorem log_read_line_line (log : log_rb) (buf : Nat → Nat) (put get : Nat) :
    (log_read_line log buf put get).line =
      takeLine (stream log get (min (u32sub put get) 255)) := by
  simp only [log_read_line]
  exact readLoop_line log _ buf 0 get

theorem log_read_line_count (log : log_rb) (buf : Nat → Nat) (put get : Nat) :
    (log_read_line log buf put get).count =
      (log_read_line log buf put get).line.length := by
  simp only [log_read_line]
  rw [readLoop_count]
  simp

theorem log_read_line_count_le (log : log_rb) (buf : Nat → Nat) (put get : Nat) :
    (log_read_line log buf put get).count ≤ min (u32sub put get) 255 := by
  rw [log_read_line_count, log_read_line_line]
  calc (takeLine (stream log get (min (u32sub put get) 255))).length
      ≤ (stream log get (min (u32sub put get) 255)).length := takeLine_length_le _
    _ = min (u32sub put get) 255 := stream_length log get _

theorem log_read_line_count_pos (log : log_rb) (buf : Nat → Nat) (put get : Nat)
    (h : u32sub put get ≠ 0) : 1 ≤ (log_read_line log buf put get).count := by
  rw [log_read_line_count, log_read_line_line]
  have hm : min (u32sub put get) 255 = (min (u32sub put get) 255 - 1) + 1 := by omega
  rw [hm]
  simp only [stream]
  exact takeLine_length_pos _ _

theorem log_read_line_buf_copied (log : log_rb) (buf : Nat → Nat) (put get j : Nat)
    (hj : j < (log_read_line log buf put get).count) :
    (log_read_line log buf put get).buf j =
      (log_read_line log buf put get).line.getD j 0 := by
  simp only [log_read_line] at hj ⊢
  have hne : j ≠ (readLoop log.data (log.sz - 1) buf 0 get (min (u32sub put get) 255)).count := by
    omega
  simp only [hne, ite_false]
  have := readLoop_buf_copied log.data (log.sz - 1) (min (u32sub put get) 255) buf 0 get j
    (Nat.zero_le j) hj
  simpa using this

theorem log_read_line_buf_term (log : log_rb) (buf : Nat → Nat) (put get : Nat) :
    (log_read_line log buf put get).buf (log_read_line log buf put get).count = 0 := by
  simp [log_read_line]

theorem log_read_line_idxs_le (log : log_rb) (buf : Nat → Nat) (put get : Nat) :
    ∀ x ∈ (log_read_line log buf put get).idxs, x ≤ log.sz - 1 := by
  simp only [log_read_line]
  exact readLoop_idxs_le log.data (log.sz - 1) _ buf 0 get

/-- If a newline was copied, it is the last byte of the line. -/
theorem takeLine_getD_last (l : List Nat) (h : 10 ∈ takeLine l) :
    (takeLine l).getD ((takeLine l).length - 1) 0 = 10 := by
  induction l with
  | nil => simp [takeLine] at h
  | cons c r ih =>
    by_cases hc : c = 10
    · simp [takeLine, hc]
    · simp only [takeLine, hc, ite_false] at h ⊢
      have h10 : 10 ∈ takeLine r := by
        rcases List.mem_cons.mp h with h1 | h1
        · exact absurd h1.symm hc
        · exact h1
      have hlen : 1 ≤ (takeLine r).length := List.length_pos.mpr (by
        intro hemp; rw [hemp] at h10; simp at h10)
      have := ih h10
      simp only [List.length_cons]
      have hidx : (takeLine r).length + 1 - 1 = ((takeLine r).length - 1) + 1 := by omega
      rw [hidx]
      simpa using this

theorem takeLine_take_comm (l : List Nat) :
    ∀ n, takeLine (l.take n) = (takeLine l).take n := by
  induction l with
  | nil => intro n; simp [takeLine]
  | cons c r ih =>
    intro n
    cases n with
    | zero => simp [takeLine]
    | succ n =>
      by_cases hc : c = 10
      · simp [takeLine, hc]
      · simp [takeLine, hc, ih n]

theorem takeLine_eq_take (l : List Nat) :
    takeLine l = l.take (takeLine l).length := by
  induction l with
  | nil => simp [takeLine]
  | cons c r ih =>
    by_cases hc : c = 10
    · simp [takeLine, hc]
    · simp only [takeLine, hc, ite_false, List.length_cons, List.take_succ_cons]
      exact congrArg (c :: ·) ih

theorem stream_take (log : log_rb) (m : Nat) :
    ∀ (get n : Nat), (stream log get m).take n = stream log get (min n m) := by
  induction m with
  | zero => intro get n; simp [stream]
  | succ m ih =>
    intro get n
    cases n with
    | zero => simp [stream]
    | succ n =>
      have : min (n + 1) (m + 1) = (min n m) + 1 := by omega
      rw [this]
      simp only [stream, List.take_succ_cons]
      rw [ih]

theorem stream_drop (log : log_rb) (m : Nat) :
    ∀ (get n : Nat), (stream log get m).drop n = stream log (get + n) (m - n) := by
  induction m with
  | zero => intro get n; simp [stream]
  | succ m ih =>
    intro get n
    cases n with
    | zero => simp [stream]
    | succ n =>
      simp only [stream, List.drop_succ_cons]
      rw [ih]
      have : get + 1 + n = get + (n + 1) := by omega
      rw [this]
      have : m + 1 - (n + 1) = m - n := by omega
      rw [this]

/-- Reads through the power-of-two mask only depend on the counter
modulo the capacity. -/
theorem stream_congr (log : log_rb) (k : Nat) (hsz : log.sz = 2 ^ k) (m : Nat) :
    ∀ (x y : Nat), x % 2 ^ k = y % 2 ^ k → stream log x m = stream log y m := by
  induction m with
  | zero => intro x y _; rfl
  | succ m ih =>
    intro x y hxy
    simp only [stream]
    have hmask : x &&& (log.sz - 1) = y &&& (log.sz - 1) := by
      rw [hsz, and_two_pow_sub_one, and_two_pow_sub_one, hxy]
    rw [hmask]
    have hx1 : (x + 1) % 2 ^ k = (y + 1) % 2 ^ k := Nat.ModEq.add_right 1 hxy
    rw [ih (x + 1) (y + 1) hx1]

theorem stream_u32 (log : log_rb) (k : Nat) (hsz : log.sz = 2 ^ k) (hk : k ≤ 32)
    (m x : Nat) : stream log (u32 x) m = stream log x m := by
  apply stream_congr log k hsz
  unfold u32 M32
  have hdvd : 2 ^ k ∣ 4294967296 := by
    have : (4294967296 : Nat) = 2 ^ 32 := by norm_num
    rw [this]
    exact pow_dvd_pow 2 hk
  exact Nat.mod_mod_of_dvd x hdvd

theorem drainStep_done (log : log_rb) (get : Nat) (h : u32 log.put = u32 get) :
    drainStep log get = .done := by
  simp [drainStep, h]

theorem drainStep_overflow (log : log_rb) (get : Nat)
    (h1 : ¬ u32 log.put = u32 get) (h2 : log.sz < u32sub log.alloc get) :
    drainStep log get =
      .overflow (u32sub log.alloc log.sz)
        (log_read_line log (fun _ => 0) log.put get).idxs := by
  simp [drainStep, h1, h2]

theorem drainStep_line (log : log_rb) (get : Nat)
    (h1 : ¬ u32 log.put = u32 get) (h2 : ¬ log.sz < u32sub log.alloc get) :
    drainStep log get =
      .line (log_read_line log (fun _ => 0) log.put get).line
        (u32 (get + (log_read_line log (fun _ => 0) log.put get).count))
        (log_read_line log (fun _ => 0) log.put get).idxs := by
  simp [drainStep, h1, h2]

theorem drainLoop_done (log : log_rb) (lim : Nat → Bool) (tick get fuel : Nat)
    (h : u32 log.put = u32 get) :
    drainLoop log lim tick get (fuel + 1) = some ⟨get, [], 0, []⟩ := by
  simp [drainLoop, drainStep_done log get h]

theorem drainLoop_overflow (log : log_rb) (lim : Nat → Bool) (tick get fuel : Nat)
    (h1 : ¬ u32 log.put = u32 get) (h2 : log.sz < u32sub log.alloc get) :
    drainLoop log lim tick get (fuel + 1) =
      (drainLoop log lim tick (u32sub log.alloc log.sz) fuel).map fun d =>
        ⟨d.get, d.lines, d.overflows + 1,
          (log_read_line log (fun _ => 0) log.put get).idxs ++ d.idxs⟩ := by
  simp [drainLoop, drainStep_overflow log get h1 h2]

theorem drainLoop_line_step (log : log_rb) (lim : Nat → Bool) (tick get fuel : Nat)
    (h1 : ¬ u32 log.put = u32 get) (h2 : ¬ log.sz < u32sub log.alloc get) :
    drainLoop log lim tick get (fuel + 1) =
      (drainLoop log lim (tick + 1)
          (u32 (get + (log_read_line log (fun _ => 0) log.put get).count)) fuel).map fun d =>
        ⟨d.get, ((log_read_line log (fun _ => 0) log.put get).line, lim tick) :: d.lines,
          d.overflows, (log_read_line log (fun _ => 0) log.put get).idxs ++ d.idxs⟩ := by
  simp [drainLoop, drainStep_line log get h1 h2]

theorem chunks_nil : chunks [] = [] := rfl

theorem chunks_cons (bs : List Nat) (h : bs ≠ []) :
    chunks bs =
      takeLine (bs.take 255) :: chunks (bs.drop (takeLine (bs.take 255)).length) := by
  rcases bs with _ | ⟨c, r⟩
  · exact absurd rfl h
  · show chunksAux (c :: r).length (c :: r) = _
    simp only [List.length_cons, chunksAux]
    congr 1
    have hpos : 1 ≤ (takeLine ((c :: r).take 255)).length := by
      simp only [List.take_succ_cons]
      exact takeLine_length_pos _ _
    apply chunksAux_congr
    · simp only [List.length_drop, List.length_cons]
      omega
    · exact le_rfl

theorem splitLines_nil : splitLines [] = [] := rfl

theorem splitLines_cons (bs : List Nat) (h : bs ≠ []) :
    splitLines bs = takeLine bs :: splitLines (bs.drop (takeLine bs).length) := by
  rcases bs with _ | ⟨c, r⟩
  · exact absurd rfl h
  · show splitLinesAux (c :: r).length (c :: r) = _
    simp only [List.length_cons, splitLinesAux]
    congr 1
    have hpos : 1 ≤ (takeLine (c :: r)).length := takeLine_length_pos _ _
    apply splitLinesAux_congr
    · simp only [List.length_drop, List.length_cons]
      omega
    · exact le_rfl

/-- The first chunk is a literal prefix of the stream. -/
theorem chunks_head_take (bs : List Nat) :
    takeLine (bs.take 255) = bs.take (takeLine (bs.take 255)).length := by
  have h1 := takeLine_eq_take (bs.take 255)
  rw [List.take_take] at h1
  have h2 : (takeLine (bs.take 255)).length ≤ 255 :=
    le_trans (takeLine_length_le _) (by simpa using List.length_take_le 255 bs)
  rwa [min_eq_left h2] at h1

/-- Every byte of the stream lands in exactly one chunk, in order:
the chunks concatenate back to the stream. -/
theorem chunks_flatten : ∀ (n : Nat) (bs : List Nat), bs.length ≤ n →
    (chunks bs).flatten = bs := by
  intro n
  induction n with
  | zero =>
    intro bs hbs
    have : bs = [] := List.eq_nil_of_length_eq_zero (by omega)
    rw [this, chunks_nil]
    rfl
  | succ n ih =>
    intro bs hbs
    by_cases h : bs = []
    · rw [h, chunks_nil]; rfl
    · rw [chunks_cons bs h]
      have hpos : 1 ≤ (takeLine (bs.take 255)).length := by
        rcases bs with _ | ⟨c, r⟩
        · exact absurd rfl h
        · simp only [List.take_succ_cons]
          exact takeLine_length_pos _ _
      have hlen : (bs.drop (takeLine (bs.take 255)).length).length ≤ n := by
        simp only [List.length_drop]
        have : 1 ≤ bs.length := List.length_pos.mpr h
        omega
      rw [List.flatten_cons, ih _ hlen]
      nth_rewrite 1 [chunks_head_take bs]
      exact List.take_append_drop _ bs

/-- When every newline-delimited piece fits in the scratch buffer, the
chunks are exactly the newline-delimited lines. -/
theorem chunks_eq_splitLines : ∀ (n : Nat) (bs : List Nat), bs.length ≤ n →
    (∀ l ∈ splitLines bs, l.length ≤ 255) → chunks bs = splitLines bs := by
  intro n
  induction n with
  | zero =>
    intro bs hbs _
    have : bs = [] := List.eq_nil_of_length_eq_zero (by omega)
    rw [this, chunks_nil, splitLines_nil]
  | succ n ih =>
    intro bs hbs hshort
    by_cases h : bs = []
    · rw [h, chunks_nil, splitLines_nil]
    · have hmem : takeLine bs ∈ splitLines bs := by
        rw [splitLines_cons bs h]; exact List.mem_cons_self _ _
      have hfirst : (takeLine bs).length ≤ 255 := hshort _ hmem
      have hhead : takeLine (bs.take 255) = takeLine bs := by
        rw [takeLine_take_comm, List.take_of_length_le hfirst]
      rw [chunks_cons bs h, splitLines_cons bs h, hhead]
      have hpos : 1 ≤ (takeLine bs).length := by
        rcases bs with _ | ⟨c, r⟩
        · exact absurd rfl h
        · exact takeLine_length_pos _ _
      have hlen : (bs.drop (takeLine bs).length).length ≤ n := by
        simp only [List.length_drop]
        have : 1 ≤ bs.length := List.length_pos.mpr h
        omega
      have hrest : ∀ l ∈ splitLines (bs.drop (takeLine bs).length), l.length ≤ 255 := by
        intro l hl
        apply hshort
        rw [splitLines_cons bs h]
        exact List.mem_cons_of_mem _ hl
      rw [ih _ hlen hrest]

/-- Termination of the drain loop whenever the producer's reservation
does not run more than a full capacity ahead of its commit counter. -/
theorem drainLoop_terminates (log : log_rb) (lim : Nat → Bool)
    (ha : u32sub log.alloc log.put ≤ log.sz) (hsz : log.sz < M32) :
    ∀ (d tick get : Nat), u32sub log.put get = d →
    ∃ fuel out, drainLoop log lim tick get fuel = some out := by
  intro d
  induction d using Nat.strong_induction_on with
  | _ d ih =>
    intro tick get hd
    by_cases hdone : u32 log.put = u32 get
    · exact ⟨1, ⟨get, [], 0, []⟩, drainLoop_done log lim tick get 0 hdone⟩
    · by_cases hov : log.sz < u32sub log.alloc get
      · obtain ⟨hjump1, hjump2⟩ := u32sub_jump log.put log.alloc log.sz get ha hsz hov
        obtain ⟨f, out, hf⟩ :=
          ih (log.sz - u32sub log.alloc log.put) (hd ▸ hjump2) tick
            (u32sub log.alloc log.sz) hjump1
        exact ⟨f + 1, _, by
          rw [drainLoop_overflow log lim tick get f hdone hov, hf]; rfl⟩
      · have hdne : u32sub log.put get ≠ 0 := fun h0 =>
          hdone ((u32sub_eq_zero_iff _ _).mp h0)
        have hlen1 : 1 ≤ (log_read_line log (fun _ => 0) log.put get).count :=
          log_read_line_count_pos log _ log.put get hdne
        have hlend : (log_read_line log (fun _ => 0) log.put get).count ≤ u32sub log.put get :=
          le_trans (log_read_line_count_le log _ log.put get) (min_le_left _ _)
        have hd' : u32sub log.put (u32 (get + (log_read_line log (fun _ => 0) log.put get).count)) =
            u32sub log.put get - (log_read_line log (fun _ => 0) log.put get).count :=
          u32sub_advance log.put get _ hlend
        obtain ⟨f, out, hf⟩ :=
          ih (u32sub log.put get - (log_read_line log (fun _ => 0) log.put get).count)
            (by omega) (tick + 1)
            (u32 (get + (log_read_line log (fun _ => 0) log.put get).count)) hd'
        exact ⟨f + 1, _, by
          rw [drainLoop_line_step log lim tick get f hdone hov, hf]; rfl⟩

/-- Core correctness of a drain in which the overflow check never
fires: the loop runs to `put`, reports no overflow, and its candidate
lines are exactly the chunking of the byte stream `[get, put)`. -/
theorem drain_no_overflow (log : log_rb) (lim : Nat → Bool) (k : Nat)
    (hszk : log.sz = 2 ^ k) (hk : k ≤ 32) :
    ∀ (fuel tick get : Nat),
    u32sub log.put get < fuel →
    u32sub log.put get ≤ u32sub log.alloc get →
    u32sub log.alloc get ≤ log.sz →
    ∃ out : DrainOut,
      drainLoop log lim tick get fuel = some out ∧
      out.lines.map Prod.fst = chunks (stream log get (u32sub log.put get)) ∧
      out.overflows = 0 ∧
      u32 out.get = u32 log.put := by
  intro fuel
  induction fuel with
  | zero => intro tick get h1 _ _; omega
  | succ fuel ih =>
    intro tick get hfuel hda has
    by_cases hdone : u32 log.put = u32 get
    · refine ⟨⟨get, [], 0, []⟩, drainLoop_done log lim tick get fuel hdone, ?_, rfl,
        hdone.symm⟩
      have hd0 : u32sub log.put get = 0 := (u32sub_eq_zero_iff _ _).mpr hdone
      rw [hd0]
      simp [stream, chunks_nil]
    · have hov : ¬ log.sz < u32sub log.alloc get := by omega
      have hdne : u32sub log.put get ≠ 0 := fun h0 =>
        hdone ((u32sub_eq_zero_iff _ _).mp h0)
      have hlen1 : 1 ≤ (log_read_line log (fun _ => 0) log.put get).count :=
        log_read_line_count_pos log _ log.put get hdne
      have hlend : (log_read_line log (fun _ => 0) log.put get).count ≤ u32sub log.put get :=
        le_trans (log_read_line_count_le log _ log.put get) (min_le_left _ _)
      have hd' : u32sub log.put (u32 (get + (log_read_line log (fun _ => 0) log.put get).count)) =
          u32sub log.put get - (log_read_line log (fun _ => 0) log.put get).count :=
        u32sub_advance log.put get _ hlend
      have ha' : u32sub log.alloc (u32 (get + (log_read_line log (fun _ => 0) log.put get).count)) =
          u32sub log.alloc get - (log_read_line log (fun _ => 0) log.put get).count :=
        u32sub_advance log.alloc get _ (le_trans hlend hda)
      obtain ⟨out, hout, hlines, hovf, hget⟩ :=
        ih (tick + 1) (u32 (get + (log_read_line log (fun _ => 0) log.put get).count))
          (by rw [hd']; omega) (by rw [hd', ha']; omega) (by rw [ha']; omega)
      refine ⟨⟨out.get, ((log_read_line log (fun _ => 0) log.put get).line, lim tick) :: out.lines,
        out.overflows, (log_read_line log (fun _ => 0) log.put get).idxs ++ out.idxs⟩,
        ?_, ?_, hovf, hget⟩
      · rw [drainLoop_line_step log lim tick get fuel hdone hov, hout]; rfl
      · simp only [List.map_cons]
        have hstream' : stream log (u32 (get + (log_read_line log (fun _ => 0) log.put get).count))
              (u32sub log.put get - (log_read_line log (fun _ => 0) log.put get).count) =
            stream log (get + (log_read_line log (fun _ => 0) log.put get).count)
              (u32sub log.put get - (log_read_line log (fun _ => 0) log.put get).count) :=
          stream_u32 log k hszk hk _ _
        rw [hd', hstream'] at hlines
        rw [hlines]
        have hbs_ne : stream log get (u32sub log.put get) ≠ [] := by
          intro hemp
          have hsl := stream_length log get (u32sub log.put get)
          rw [hemp] at hsl
          simp at hsl
          omega
        rw [chunks_cons _ hbs_ne]
        have hline : takeLine ((stream log get (u32sub log.put get)).take 255) =
            (log_read_line log (fun _ => 0) log.put get).line := by
          rw [stream_take, Nat.min_comm, log_read_line_line]
        rw [hline]
        rw [← log_read_line_count log (fun _ => 0) log.put get]
        rw [stream_drop]

theorem takeLine_eq_self (l : List Nat) (h : ∀ b ∈ l, b ≠ 10) : takeLine l = l := by
  induction l with
  | nil => rfl
  | cons c r ih =>
    have hc : c ≠ 10 := h c (List.mem_cons_self _ _)
    simp only [takeLine, hc, ite_false]
    rw [ih fun b hb => h b (List.mem_cons_of_mem _ hb)]

theorem is_power_of_2_two_pow (k : Nat) : is_power_of_2 (2 ^ k) = true := by
  unfold is_power_of_2
  have h1 : 2 ^ k ≠ 0 := Nat.pos_iff_ne_zero.mp (Nat.pos_pow_of_pos k (by norm_num))
  have h2 : 2 ^ k &&& (2 ^ k - 1) = 0 := by
    rw [and_two_pow_sub_one]
    exact Nat.mod_self _
  simp [h1, h2]

theorem is_power_of_2_ne_zero (n : Nat) (h : is_power_of_2 n = true) : n ≠ 0 := by
  unfold is_power_of_2 at h
  simp only [Bool.and_eq_true, bne_iff_ne, ne_eq] at h
  exact h.1

/-- Bound on every ring index recorded by a successful drain loop. -/
theorem drainLoop_idxs_le (log : log_rb) (lim : Nat → Bool) :
    ∀ (fuel tick get : Nat) (d : DrainOut),
    drainLoop log lim tick get fuel = some d →
    ∀ x ∈ d.idxs, x ≤ log.sz - 1 := by
  intro fuel
  induction fuel with
  | zero => intro tick get d h; exact absurd h (by simp [drainLoop])
  | succ fuel ih =>
    intro tick get d h x hx
    by_cases h1 : u32 log.put = u32 get
    · rw [drainLoop_done log lim tick get fuel h1] at h
      obtain rfl : (⟨get, [], 0, []⟩ : DrainOut) = d := Option.some.inj h
      simp at hx
    · by_cases h2 : log.sz < u32sub log.alloc get
      · rw [drainLoop_overflow log lim tick get fuel h1 h2] at h
        rcases hrec : drainLoop log lim tick (u32sub log.alloc log.sz) fuel with _ | d'
        · rw [hrec] at h; exact absurd h (by simp)
        · rw [hrec] at h
          obtain rfl := Option.some.inj h
          simp only [List.mem_append] at hx
          rcases hx with hx | hx
          · exact log_read_line_idxs_le log _ log.put get x hx
          · exact ih tick (u32sub log.alloc log.sz) d' hrec x hx
      · rw [drainLoop_line_step log lim tick get fuel h1 h2] at h
        rcases hrec : drainLoop log lim (tick + 1)
            (u32 (get + (log_read_line log (fun _ => 0) log.put get).count)) fuel with _ | d'
        · rw [hrec] at h; exact absurd h (by simp)
        · rw [hrec] at h
          obtain rfl := Option.some.inj h
          simp only [List.mem_append] at hx
          rcases hx with hx | hx
          · exact log_read_line_idxs_le log _ log.put get x hx
          · exact ih (tick + 1) _ d' hrec x hx

/-- The always-allowing rate limiter oracle (limiter quota never
exhausted). -/
def allowAll : Nat → Bool := fun _ => true

/-- Ring of capacity 16 holding the 3 committed bytes `"hi\n"`
(`h` = 104, `i` = 105, newline = 10), `put = alloc = 3`. -/
def ringHi : log_rb :=
  ⟨16, 3, 3, fun idx =>
    if idx = 0 then 104 else if idx = 1 then 105 else if idx = 2 then 10 else 0⟩

/-- Ring of capacity 16 after the producer wrote 20 non-newline bytes
(byte at write position `j` is `65 + j`) and advanced
`put = alloc = 20`: ring indices `0..3` were overwritten by write
positions `16..19`. -/
def ring20 : log_rb :=
  ⟨16, 20, 20, fun idx => if idx < 4 then 81 + idx else 65 + idx⟩

/-- Byte contents `"ab\ncd\n"` at ring indices `0..5`. -/
def dataAB : Nat → Nat := fun idx =>
  if idx = 0 then 97 else if idx = 1 then 98 else if idx = 2 then 10
  else if idx = 3 then 99 else if idx = 4 then 100 else if idx = 5 then 10 else 0

/-- The `"ab\ncd\n"` ring observed after the producer committed only the
first two bytes (mid-line). -/
def ringAB1 : log_rb := ⟨16, 2, 2, dataAB⟩

/-- The `"ab\ncd\n"` ring observed after the producer committed all six
bytes. -/
def ringAB2 : log_rb := ⟨16, 6, 6, dataAB⟩

/-- An adversarial ring state: capacity 16, `alloc = 16`, but
`put = 1000`, i.e. the producer published a commit counter almost a
thousand bytes ahead of its reservation counter (violating
`alloc - put ≤ sz`); all data bytes are non-newline. -/
def badlog : log_rb := ⟨16, 1000, 16, fun _ => 65⟩

/-- A non-power-of-two capacity ring. -/
def ring12 : log_rb := ⟨12, 5, 5, fun _ => 65⟩

/-- On `badlog` the drain loop oscillates forever between cursor 0
(emit 255 bytes, land at 255) and cursor 255 (overflow check fires,
jump back to `alloc - sz = 0`): no fuel suffices. -/
theorem badlog_loop : ∀ n : Nat,
    (∀ tick, drainLoop badlog allowAll tick 0 n = none) ∧
    (∀ tick, drainLoop badlog allowAll tick 255 n = none) := by
  intro n
  induction n with
  | zero => exact ⟨fun _ => rfl, fun _ => rfl⟩
  | succ n ih =>
    constructor
    · intro tick
      rw [drainLoop_line_step badlog allowAll tick 0 n (by decide) (by decide)]
      rw [show u32 (0 + (log_read_line badlog (fun _ => 0) badlog.put 0).count) = 255 from
        by decide]
      rw [ih.2 (tick + 1)]
      rfl
    · intro tick
      rw [drainLoop_overflow badlog allowAll tick 255 n (by decide) (by decide)]
      rw [show u32sub badlog.alloc badlog.sz = 0 from by decide]
      rw [ih.1 tick]
      rfl

/-- C1: during a drain iteration, if after copying the candidate line
the re-read reserved counter satisfies
`reserved - consumed > capacity` (u32 arithmetic), the line is not
submitted to the sink (the continuation's line list is unchanged), one
overflow condition is reported (`overflows + 1`), the cursor is set to
exactly `reserved - capacity`, and the loop continues from the top; the
just-read bytes are never salvaged. -/
theorem C1_overflow_discard (log : log_rb) (lim : Nat → Bool) (tick get fuel : Nat)
    (h1 : u32 log.put ≠ u32 get) (h2 : u32sub log.alloc get > log.sz) :
    drainStep log get =
      Step.overflow (u32sub log.alloc log.sz)
        (log_read_line log (fun _ => 0) log.put get).idxs ∧
    drainLoop log lim tick get (fuel + 1) =
      (drainLoop log lim tick (u32sub log.alloc log.sz) fuel).map fun d =>
        ⟨d.get, d.lines, d.overflows + 1,
          (log_read_line log (fun _ => 0) log.put get).idxs ++ d.idxs⟩ :=
  ⟨drainStep_overflow log get h1 h2, drainLoop_overflow log lim tick get fuel h1 h2⟩

/-- Witness for C1 at the concrete overflow state `ring20`. -/
theorem C1_overflow_discard_witness :
    (u32 ring20.put ≠ u32 0 ∧ u32sub ring20.alloc 0 > ring20.sz) ∧
    drainStep ring20 0 =
      Step.overflow (u32sub ring20.alloc ring20.sz)
        (log_read_line ring20 (fun _ => 0) ring20.put 0).idxs :=
  ⟨⟨by decide, by decide⟩,
    (C1_overflow_discard ring20 allowAll 0 0 3 (by decide) (by decide)).1⟩

/-- C2 (as stated) is falsified by a committed-mid-line boundary: with
capacity 16 and stream `"ab\ncd\n"`, a first drain at `committed = 2`
followed by a second at `committed = 6` satisfies
`reserved - consumed ≤ capacity` at every observation, yet emits the
lines `"ab"`, `"\n"`, `"cd\n"`: the written line `"ab\n"` (3 bytes,
far below the scratch capacity) is split across two emitted lines, so
newline-delimited boundaries are not preserved. -/
theorem C2_boundary_counterexample :
    u32sub ringAB1.put 0 ≤ ringAB1.sz ∧
    u32sub ringAB2.put 2 ≤ ringAB2.sz ∧
    (∀ l ∈ splitLines (stream ringAB2 0 6), l.length ≤ 255) ∧
    trusty_dump_logs ringAB1 allowAll 0 4 =
      some (⟨2, [([97, 98], true)], 0, [0, 1]⟩, false) ∧
    trusty_dump_logs ringAB2 allowAll 2 4 =
      some (⟨6, [([10], true), ([99, 100, 10], true)], 0, [2, 3, 4, 5]⟩, false) ∧
    splitLines (stream ringAB2 0 6) = [[97, 98, 10], [99, 100, 10]] ∧
    [[97, 98], [10], [99, 100, 10]] ≠ [[97, 98, 10], [99, 100, 10]] := by
  decide

/-- C2 (amended): within a single drain whose every observation
satisfies the no-overflow bound (`put - get ≤ alloc - get ≤ capacity`),
every byte of the committed range appears in exactly one candidate line,
in order (the lines concatenate back to the byte stream); no overflow is
reported; the cursor ends at `put`; and when every newline-delimited
line of the range fits the scratch capacity, the candidate lines are
exactly those newline-delimited lines.  Lines are dropped only by the
rate limiter (the per-line `Bool` verdict). -/
theorem C2_drain_emits_stream (log : log_rb) (lim : Nat → Bool) (k get fuel : Nat)
    (hszk : log.sz = 2 ^ k) (hk : k ≤ 32)
    (hfuel : u32sub log.put get < fuel)
    (hda : u32sub log.put get ≤ u32sub log.alloc get)
    (has : u32sub log.alloc get ≤ log.sz) :
    ∃ out : DrainOut,
      trusty_dump_logs log lim get fuel = some (out, false) ∧
      (out.lines.map Prod.fst).flatten = stream log get (u32sub log.put get) ∧
      out.lines.map Prod.fst = chunks (stream log get (u32sub log.put get)) ∧
      out.overflows = 0 ∧
      u32 out.get = u32 log.put ∧
      ((∀ l ∈ splitLines (stream log get (u32sub log.put get)), l.length ≤ 255) →
        out.lines.map Prod.fst = splitLines (stream log get (u32sub log.put get))) := by
  obtain ⟨out, hrun, hchunks, hovf, hget⟩ :=
    drain_no_overflow log lim k hszk hk fuel 0 get hfuel hda has
  refine ⟨out, ?_, ?_, hchunks, hovf, hget, ?_⟩
  · unfold trusty_dump_logs
    rw [if_pos (by rw [hszk]; exact is_power_of_2_two_pow k)]
    rw [hrun]
    rfl
  · rw [hchunks]
    exact chunks_flatten _ _ le_rfl
  · intro hshort
    rw [hchunks]
    exact chunks_eq_splitLines _ _ le_rfl hshort

/-- Witness for the amended C2 at the fully committed `"ab\ncd\n"`
ring. -/
theorem C2_drain_emits_stream_witness :
    (ringAB2.sz = 2 ^ 4 ∧ u32sub ringAB2.put 0 < 7 ∧
      u32sub ringAB2.put 0 ≤ u32sub ringAB2.alloc 0 ∧
      u32sub ringAB2.alloc 0 ≤ ringAB2.sz) ∧
    ∃ out : DrainOut,
      trusty_dump_logs ringAB2 allowAll 0 7 = some (out, false) ∧
      (out.lines.map Prod.fst).flatten = stream ringAB2 0 (u32sub ringAB2.put 0) := by
  refine ⟨⟨by decide, by decide, by decide, by decide⟩, ?_⟩
  obtain ⟨out, h1, h2, -⟩ :=
    C2_drain_emits_stream ringAB2 allowAll 4 0 7 (by decide) (by decide)
      (by decide) (by decide) (by decide)
  exact ⟨out, h1, h2⟩

/-- C3: `log_read_line` copies bytes from `data[get & (sz-1)]` onward
until a newline has been copied or `min(put - get, 255)` bytes have been
copied (the returned line is `takeLine` of the masked byte stream of
that length); it returns the number of bytes copied; it writes the
terminator `0` at the index equal to that count, with the copied bytes
below it; and when no newline occurs in range the count is exactly
`min(put - get, 255)` — in particular a 255-byte newline-free line
consumes exactly 255 bytes and is emitted truncated. -/
theorem C3_read_line_spec (log : log_rb) (buf : Nat → Nat) (put get : Nat) :
    (log_read_line log buf put get).line =
      takeLine (stream log get (min (u32sub put get) 255)) ∧
    (log_read_line log buf put get).count =
      (log_read_line log buf put get).line.length ∧
    (log_read_line log buf put get).count ≤ min (u32sub put get) 255 ∧
    (log_read_line log buf put get).buf (log_read_line log buf put get).count = 0 ∧
    (∀ j, j < (log_read_line log buf put get).count →
      (log_read_line log buf put get).buf j =
        (log_read_line log buf put get).line.getD j 0) ∧
    ((∀ b ∈ stream log get (min (u32sub put get) 255), b ≠ 10) →
      (log_read_line log buf put get).count = min (u32sub put get) 255) := by
  refine ⟨log_read_line_line log buf put get, log_read_line_count log buf put get,
    log_read_line_count_le log buf put get, log_read_line_buf_term log buf put get,
    fun j hj => log_read_line_buf_copied log buf put get j hj, ?_⟩
  intro hno
  rw [log_read_line_count, log_read_line_line, takeLine_eq_self _ hno,
    stream_length]

/-- Witness for C3: a 255-byte newline-free source consumes exactly
255 = C-1 bytes. -/
theorem C3_read_line_spec_witness :
    (∀ b ∈ stream badlog 0 (min (u32sub 1000 0) 255), b ≠ 10) ∧
    (log_read_line badlog (fun _ => 0) 1000 0).count = min (u32sub 1000 0) 255 :=
  ⟨by decide, (C3_read_line_spec badlog (fun _ => 0) 1000 0).2.2.2.2.2 (by decide)⟩

/-- C4 (as stated) is falsified: on the adversarial state `badlog`
(capacity 16, `alloc = 16`, `put = 1000`, non-newline data) a single
drain invocation never terminates — the cursor oscillates between 0 and
255 under alternating emit and overflow-recovery steps, so no fuel bound
makes the loop reach its exit condition. -/
theorem C4_nontermination_counterexample :
    ¬ drainTerminates badlog allowAll 0 := by
  rintro ⟨fuel, out, h⟩
  unfold trusty_dump_logs at h
  rw [if_pos (by decide : is_power_of_2 badlog.sz = true)] at h
  rw [(badlog_loop fuel).1 0] at h
  exact Option.noConfusion h

/-- C4 (amended): a single drain invocation terminates whenever the
observed reserved counter does not exceed the observed committed counter
by more than the capacity (`(alloc - put) mod 2^32 ≤ sz`); it never
waits for data — when the committed counter equals the cursor the very
first iteration returns with nothing done. -/
theorem C4_drain_terminates (log : log_rb) (lim : Nat → Bool) (get : Nat)
    (ha : u32sub log.alloc log.put ≤ log.sz) (hsz : log.sz < M32) :
    drainTerminates log lim get ∧
    (u32 log.put = u32 get →
      ∀ fuel, drainLoop log lim 0 get (fuel + 1) = some ⟨get, [], 0, []⟩) := by
  constructor
  · by_cases hp : is_power_of_2 log.sz = true
    · obtain ⟨fuel, out, hout⟩ :=
        drainLoop_terminates log lim ha hsz (u32sub log.put get) 0 get rfl
      refine ⟨fuel, (out, false), ?_⟩
      unfold trusty_dump_logs
      rw [if_pos hp, hout]
      rfl
    · refine ⟨0, (⟨get, [], 0, []⟩, true), ?_⟩
      unfold trusty_dump_logs
      rw [if_neg hp]
  · intro hdone fuel
    exact drainLoop_done log lim 0 get fuel hdone

/-- Witness for the amended C4 at the `"hi\n"` ring (`alloc = put`). -/
theorem C4_drain_terminates_witness :
    (u32sub ringHi.alloc ringHi.put ≤ ringHi.sz ∧ ringHi.sz < M32) ∧
    drainTerminates ringHi allowAll 0 :=
  ⟨⟨by decide, by decide⟩,
    (C4_drain_terminates ringHi allowAll 0 (by decide) (by decide)).1⟩

/-- C5: every index at which a drain reads the ring's data array is
below the capacity, for every producer state, cursor and fuel — each
access is masked with `capacity - 1`, and a drain only reads at all when
the power-of-two guard passed (so `capacity ≥ 1`). -/
theorem C5_reads_in_bounds (log : log_rb) (lim : Nat → Bool) (get fuel : Nat)
    (out : DrainOut × Bool) (idx : Nat)
    (hrun : trusty_dump_logs log lim get fuel = some out)
    (hidx : idx ∈ out.1.idxs) : idx < log.sz := by
  unfold trusty_dump_logs at hrun
  by_cases hp : is_power_of_2 log.sz = true
  · rw [if_pos hp] at hrun
    rcases hrec : drainLoop log lim 0 get fuel with _ | d
    · rw [hrec] at hrun; exact absurd hrun (by simp)
    · rw [hrec] at hrun
      obtain rfl := Option.some.inj hrun
      have hle : idx ≤ log.sz - 1 := drainLoop_idxs_le log lim fuel 0 get d hrec idx hidx
      have hne : log.sz ≠ 0 := is_power_of_2_ne_zero log.sz hp
      omega
  · rw [if_neg hp] at hrun
    obtain rfl := Option.some.inj hrun
    simp at hidx

/-- Witness for C5 at the `"hi\n"` ring: index 0 is read and is in
bounds. -/
theorem C5_reads_in_bounds_witness :
    (trusty_dump_logs ringHi allowAll 0 4 =
        some (⟨3, [([104, 105, 10], true)], 0, [0, 1, 2]⟩, false) ∧
      0 ∈ [0, 1, 2]) ∧
    0 < ringHi.sz :=
  ⟨⟨by decide, by decide⟩,
    C5_reads_in_bounds ringHi allowAll 0 4
      (⟨3, [([104, 105, 10], true)], 0, [0, 1, 2]⟩, false) 0 (by decide) (by decide)⟩

/-- C6: capacity 16, 20 non-newline bytes written, `put = alloc = 20`,
cursor 0: the first iteration detects `20 - 0 > 16`, discards the
20-byte candidate line, and jumps the cursor to exactly 4; the full
drain reports exactly one overflow (not sixteen), emits only the
16-byte line surviving at positions `4..19`, and ends at cursor 20. -/
theorem C6_overflow_scenario :
    drainStep ring20 0 =
      Step.overflow 4
        [0, 1, 2, 3, 4, 5, 6, 7, 8, 9, 10, 11, 12, 13, 14, 15, 0, 1, 2, 3] ∧
    (trusty_dump_logs ring20 allowAll 0 6).map
        (fun o => (o.1.get, o.1.lines, o.1.overflows, o.2)) =
      some (20,
        [([69, 70, 71, 72, 73, 74, 75, 76, 77, 78, 79, 80, 81, 82, 83, 84], true)],
        1, false) := by
  decide

/-- C7 (as stated) is falsified: the single emitted line for the
`"hi\n"` scenario is the bytes `[104, 105, 10]` — `"hi"` followed by
the copied newline — not the 2-byte `"hi"`. -/
theorem C7_content_counterexample :
    (trusty_dump_logs ringHi allowAll 0 4).map (fun o => o.1.lines.map Prod.fst) =
      some [[104, 105, 10]] ∧
    [[104, 105, 10]] ≠ [[104, 105]] := by
  decide

/-- C7 (amended): with capacity 16 and `"hi\n"` committed
(`put = alloc = 3`), one drain emits exactly one line, whose content is
`"hi\n"` (the trailing newline included, bytes `104, 105, 10`), and
leaves the cursor at 3. -/
theorem C7_hi_scenario :
    trusty_dump_logs ringHi allowAll 0 4 =
      some (⟨3, [([104, 105, 10], true)], 0, [0, 1, 2]⟩, false) := by
  decide

/-- C8: in a non-corrupt iteration the candidate line is recorded with
the rate limiter's verdict (`lim tick`): submitted exactly when the
limiter allows, otherwise dropped silently; in both cases the loop
continues from `get + read_chars` — the cursor advance and the
continuation are independent of the verdict, so a denied line is never
retried. -/
theorem C8_ratelimit_gate (log : log_rb) (lim : Nat → Bool) (tick get fuel : Nat)
    (h1 : u32 log.put ≠ u32 get) (h2 : ¬ u32sub log.alloc get > log.sz) :
    drainLoop log lim tick get (fuel + 1) =
      (drainLoop log lim (tick + 1)
          (u32 (get + (log_read_line log (fun _ => 0) log.put get).count)) fuel).map fun d =>
        ⟨d.get, ((log_read_line log (fun _ => 0) log.put get).line, lim tick) :: d.lines,
          d.overflows, (log_read_line log (fun _ => 0) log.put get).idxs ++ d.idxs⟩ :=
  drainLoop_line_step log lim tick get fuel h1 h2

/-- Witness for C8 at the `"hi\n"` ring with the always-allow
limiter. -/
theorem C8_ratelimit_gate_witness :
    (u32 ringHi.put ≠ u32 0 ∧ ¬ u32sub ringHi.alloc 0 > ringHi.sz) ∧
    drainLoop ringHi allowAll 0 0 (3 + 1) =
      (drainLoop ringHi allowAll (0 + 1)
          (u32 (0 + (log_read_line ringHi (fun _ => 0) ringHi.put 0).count)) 3).map fun d =>
        ⟨d.get, ((log_read_line ringHi (fun _ => 0) ringHi.put 0).line, allowAll 0) :: d.lines,
          d.overflows, (log_read_line ringHi (fun _ => 0) ringHi.put 0).idxs ++ d.idxs⟩ :=
  ⟨⟨by decide, by decide⟩,
    C8_ratelimit_gate ringHi allowAll 0 0 3 (by decide) (by decide)⟩

/-- C9: when the capacity is not a power of two, a drain reports the
configuration error, reads nothing (no indices), emits no lines, leaves
the cursor unchanged, and returns normally. -/
theorem C9_non_power_of_two (log : log_rb) (lim : Nat → Bool) (get fuel : Nat)
    (h : is_power_of_2 log.sz = false) :
    trusty_dump_logs log lim get fuel = some (⟨get, [], 0, []⟩, true) := by
  unfold trusty_dump_logs
  rw [if_neg (by simp [h])]

/-- Witness for C9 at capacity 12. -/
theorem C9_non_power_of_two_witness :
    is_power_of_2 ring12.sz = false ∧
    trusty_dump_logs ring12 allowAll 7 9 = some (⟨7, [], 0, []⟩, true) :=
  ⟨by decide, C9_non_power_of_two ring12 allowAll 7 9 (by decide)⟩

/-- C10: whenever the end counter differs from the start counter,
`log_read_line` consumes at least one byte; and when a newline byte was
copied, it is the last byte of the line — stored in the scratch buffer
immediately before the terminating `0` and counted in the returned
count. -/
theorem C10_newline_included (log : log_rb) (buf : Nat → Nat) (put get : Nat)
    (h : u32sub put get ≠ 0) :
    1 ≤ (log_read_line log buf put get).count ∧
    (10 ∈ (log_read_line log buf put get).line →
      (log_read_line log buf put get).line.getD
          ((log_read_line log buf put get).count - 1) 0 = 10 ∧
      (log_read_line log buf put get).buf
          ((log_read_line log buf put get).count - 1) = 10 ∧
      (log_read_line log buf put get).buf (log_read_line log buf put get).count = 0) := by
  have hpos : 1 ≤ (log_read_line log buf put get).count :=
    log_read_line_count_pos log buf put get h
  refine ⟨hpos, fun hmem => ?_⟩
  have hline := log_read_line_line log buf put get
  have hcount := log_read_line_count log buf put get
  have hlast : (log_read_line log buf put get).line.getD
      ((log_read_line log buf put get).count - 1) 0 = 10 := by
    rw [hcount, hline]
    rw [hline] at hmem
    exact takeLine_getD_last _ hmem
  refine ⟨hlast, ?_, log_read_line_buf_term log buf put get⟩
  rw [log_read_line_buf_copied log buf put get _ (by omega)]
  exact hlast

/-- Witness for C10 at the `"hi\n"` ring: the newline sits at buffer
index 2, just before the terminator. -/
theorem C10_newline_included_witness :
    (u32sub 3 0 ≠ 0 ∧ 10 ∈ (log_read_line ringHi (fun _ => 0) 3 0).line) ∧
    1 ≤ (log_read_line ringHi (fun _ => 0) 3 0).count ∧
    (log_read_line ringHi (fun _ => 0) 3 0).buf
        ((log_read_line ringHi (fun _ => 0) 3 0).count - 1) = 10 :=
  ⟨⟨by decide, by decide⟩,
    (C10_newline_included ringHi (fun _ => 0) 3 0 (by decide)).1,
    ((C10_newline_included ringHi (fun _ => 0) 3 0 (by decide)).2 (by decide)).2.1⟩

end TrustyLog
